import Mathlib

/-!
Verification of the rusty-iter pull-based iterator library (rusty-iter.hpp).

Every iterator in the library exposes a single primitive, `next_internal`,
which mutates the iterator's private state and returns either a pointer to
the next item or null.  We embed each iterator as an explicit state type
together with a step function of type `σ → Option α × σ`: the `Option α`
is the returned pointer (`none` = null), the second component is the
mutated state.  Adaptors take the upstream step function and upstream
state type as parameters, exactly mirroring how each C++ adaptor owns its
upstream iterator by value and calls `_iter.next()` on it.
-/

namespace RustyIter

/-- The single-step advancement protocol: from a state, produce an optional
item and the successor state.  This is the shape of every `next_internal`
in the library, and also of the stateful generator functors
(`FiniteRangeGenerator`, `Counter`, ...) that return `std::optional`. -/
def NextFn (σ α : Type) : Type := σ → Option α × σ

/-- State after `k` advancement calls. -/
def iterN (f : NextFn σ α) (s : σ) : Nat → σ
  | 0 => s
  | k + 1 => iterN f (f s).2 k

/-- Result of the `(k+1)`-th advancement call starting from state `s`. -/
def outAt (f : NextFn σ α) (s : σ) (k : Nat) : Option α :=
  (f (iterN f s k)).1

/-- Collect up to `fuel` items by repeated advancement, stopping at the
first exhaustion signal (this is how `collect` / `for_each` consume an
iterator, with an explicit fuel bound so the function is total). -/
def collectN (f : NextFn σ α) (s : σ) : Nat → List α
  | 0 => []
  | fuel + 1 =>
    match f s with
    | (none, _) => []
    | (some v, s') => v :: collectN f s' fuel

/-- `CppIteratorWrapper` over an in-memory collection: the state is the
remaining suffix (`_begin` to `_end`); `next_internal` returns null when
`_begin == _end`, otherwise the current element, advancing `_begin`. -/
def listNext : NextFn (List α) α := fun l =>
  match l with
  | [] => (none, [])
  | x :: xs => (some x, xs)

/-- Instrumented upstream: behaves exactly like `f` but counts how many
times `next` has been called on it.  Used to observe whether a pipeline
stage advances its upstream. -/
def countedNext (f : NextFn σ α) : NextFn (σ × Nat) α := fun p =>
  let (v, s') := f p.1
  (v, (s', p.2 + 1))

/-! ## Leaf producers -/

/-- State of the `FiniteRangeGenerator` functor: `_value`, `_end`, `_step`. -/
structure FiniteRangeGen where
  value : Int
  stop : Int
  step : Int
  deriving Repr, DecidableEq

/-- `FiniteRangeGenerator<T, Inclusive>::operator()`: if the current value
is below (or at, for the inclusive variant) the bound, yield it and add
the step; otherwise return an empty optional. -/
def finiteRangeStep (inclusive : Bool) : NextFn FiniteRangeGen Int := fun g =>
  let hasValue := if inclusive then g.value ≤ g.stop else g.value < g.stop
  if hasValue then (some g.value, { g with value := g.value + g.step })
  else (none, g)

/-- State of `FiniteGeneratorIter`: the wrapped generator functor's own
state plus the sticky `_done` flag. -/
structure FiniteGenState (γ : Type) where
  gen : γ
  done : Bool
  deriving Repr, DecidableEq

/-- `FiniteGeneratorIter::next_internal`: once `_done` is set the iterator
returns null without consulting the generator; otherwise it calls the
generator, and a first empty result sets `_done`. -/
def finiteGeneratorNext (gfn : NextFn γ α) : NextFn (FiniteGenState γ) α := fun st =>
  if st.done then (none, st)
  else
    match gfn st.gen with
    | (some v, g') => (some v, ⟨g', false⟩)
    | (none, g') => (none, ⟨g', true⟩)

/-- `rusty::range(min, max)`: a `FiniteGeneratorIter` over an exclusive
`FiniteRangeGenerator` with step 1 (initial state). -/
def rangeIter (lo hi : Int) : FiniteGenState FiniteRangeGen :=
  ⟨⟨lo, hi, 1⟩, false⟩

/-- The step function of `rusty::range`. -/
def rangeNext : NextFn (FiniteGenState FiniteRangeGen) Int :=
  finiteGeneratorNext (finiteRangeStep false)

/-- `GeneratorIter::next_internal`: calls the (total) generator functor and
always returns a value; the iterator is never exhausted. -/
def generatorNext (gfn : γ → α × γ) : NextFn γ α := fun g =>
  let (v, g') := gfn g
  (some v, g')

/-! ## Adaptors -/

/-- State of `ZipIter`: both upstream iterators plus the `_anyDone` flag. -/
structure ZipState (σ τ : Type) where
  a : σ
  b : τ
  anyDone : Bool
  deriving Repr, DecidableEq

/-- Constructing a `ZipIter` stores both upstreams and clears `_anyDone`. -/
def zipInit (s : σ) (t : τ) : ZipState σ τ := ⟨s, t, false⟩

/-- `ZipIter::next_internal`: if `_anyDone`, return null; otherwise advance
both upstreams, and if either returned null, set `_anyDone` and return
null (the other upstream's item for this step is discarded); otherwise
return the pair. -/
def zipNext (f : NextFn σ α) (g : NextFn τ β) : NextFn (ZipState σ τ) (α × β) := fun st =>
  if st.anyDone then (none, st)
  else
    let (v, s') := f st.a
    let (w, t') := g st.b
    match v, w with
    | some x, some y => (some (x, y), ⟨s', t', false⟩)
    | _, _ => (none, ⟨s', t', true⟩)

/-- State of `StepByIter`: upstream state, `_first`, and `_invalid`. -/
structure StepByState (σ : Type) where
  iter : σ
  first : Bool
  invalid : Bool
  deriving Repr, DecidableEq

/-- Constructing a `StepByIter` stores the upstream unchanged, sets
`_first`, and records `_invalid = (stepSize <= 0)`. -/
def stepByInit (n : Int) (s : σ) : StepByState σ := ⟨s, true, decide (n ≤ 0)⟩

/-- The loop `for (T i = 0; i < _stepSize; ++i) last = _iter.next();`:
perform `k` advancement calls on the upstream and return the result of the
last one (null pointer if `k = 0`, which cannot happen for a valid step). -/
def pullsLast (f : NextFn σ α) : Nat → σ → Option α × σ
  | 0, s => (none, s)
  | 1, s => f s
  | k + 2, s => pullsLast f (k + 1) (f s).2

/-- `StepByIter::next_internal`: `_invalid` yields null immediately without
touching the upstream; the first valid call forwards one upstream item;
every later call advances the upstream `stepSize` times and returns the
last result. -/
def stepByNext (f : NextFn σ α) (n : Int) : NextFn (StepByState σ) α := fun st =>
  if st.invalid then (none, st)
  else if st.first then
    let (v, s') := f st.iter
    (v, ⟨s', false, st.invalid⟩)
  else
    let (v, s') := pullsLast f n.toNat st.iter
    (v, ⟨s', false, st.invalid⟩)

/-- State of `IntersperseWithIter`: upstream state, separator-getter state,
the buffered `_nextResult`, and `_separatorIsNext`.  (The `_tmpResult` and
`_tmpSeparator` members only exist to give the returned pointer an
address; they do not influence the yielded values.) -/
structure IntersperseState (σ π α : Type) where
  iter : σ
  getter : π
  nextResult : Option α
  sepIsNext : Bool
  deriving Repr, DecidableEq

/-- The `IntersperseWithIter` constructor: it advances the upstream once
immediately, buffering the first item (if any) in `_nextResult`. -/
def intersperseWithInit (f : NextFn σ α) (g0 : π) (s : σ) : IntersperseState σ π α :=
  let (v, s') := f s
  ⟨s', g0, v, false⟩

/-- `IntersperseWithIter::next_internal`: if a separator is due, produce it
from the getter; otherwise yield the buffered item and pre-fetch the next
upstream item to decide whether a separator must follow. -/
def intersperseWithNext (f : NextFn σ α) (g : π → α × π) :
    NextFn (IntersperseState σ π α) α := fun st =>
  if st.sepIsNext then
    let (sep, g') := g st.getter
    (some sep, { st with sepIsNext := false, getter := g' })
  else
    match st.nextResult with
    | some v =>
      match f st.iter with
      | (some w, s') => (some v, { st with iter := s', nextResult := some w, sepIsNext := true })
      | (none, s') => (some v, { st with iter := s', nextResult := none })
    | none => (none, st)

/-- The `Getter` functor used by `intersperse(sep)`: returns its stored
value and never changes state. -/
def getterFn : α → α × α := fun v => (v, v)

/-- State of `TakeWhileIter` with a stateful predicate functor (for
`take(n)` the functor is `Counter`): upstream state, predicate state, and
the sticky `_done` flag. -/
structure TakeWhileState (σ π : Type) where
  iter : σ
  pred : π
  done : Bool
  deriving Repr, DecidableEq

/-- Constructing a `TakeWhileIter` stores the upstream and predicate
unchanged with `_done` cleared. -/
def takeWhileInit (p0 : π) (s : σ) : TakeWhileState σ π := ⟨s, p0, false⟩

/-- `TakeWhileIter::next_internal`: if `_done`, return null.  Otherwise
advance the upstream; on a value, evaluate the predicate: true yields the
value, false discards it and sets `_done`; on upstream exhaustion `_done`
is also set. -/
def takeWhileNext (f : NextFn σ α) (p : π → α → Bool × π) :
    NextFn (TakeWhileState σ π) α := fun st =>
  if st.done then (none, st)
  else
    match f st.iter with
    | (some v, s') =>
      let (b, p') := p st.pred v
      if b then (some v, ⟨s', p', false⟩)
      else (none, ⟨s', p', true⟩)
    | (none, s') => (none, ⟨s', st.pred, true⟩)

/-- State of the `Counter` functor backing `skip(n)` / `take(n)`:
`_currentCount` and `_maxCount`. -/
structure CounterState where
  currentCount : Int
  maxCount : Int
  deriving Repr, DecidableEq

/-- `Counter::operator()`: returns `_currentCount++ < _maxCount`, i.e.
compares before incrementing. -/
def counterPred : CounterState → α → Bool × CounterState := fun c _ =>
  (decide (c.currentCount < c.maxCount), ⟨c.currentCount + 1, c.maxCount⟩)

/-- The state of `take(n)` over an upstream state `s`: a `TakeWhileIter`
whose predicate is a fresh `Counter(n)`. -/
def takeInit (n : Int) (s : σ) : TakeWhileState σ CounterState :=
  takeWhileInit ⟨0, n⟩ s

/-- State of `CycleIter`: `_originalIter` (the pristine copy), `_iter`
(the working copy), and `_iterIsEmpty`. -/
structure CycleState (σ : Type) where
  orig : σ
  cur : σ
  iterIsEmpty : Bool
  deriving Repr, DecidableEq

/-- Constructing a `CycleIter` copies the upstream twice and sets
`_iterIsEmpty`. -/
def cycleInit (s : σ) : CycleState σ := ⟨s, s, true⟩

/-- `CycleIter::next_internal`: forward values from the working copy,
clearing `_iterIsEmpty` on the first success.  On exhaustion: if no item
was ever produced, return null (never restart an empty source); otherwise
rebuild the working copy from `_originalIter` and advance it once. -/
def cycleNext (f : NextFn σ α) : NextFn (CycleState σ) α := fun st =>
  match f st.cur with
  | (some v, s') => (some v, ⟨st.orig, s', false⟩)
  | (none, s') =>
    if st.iterIsEmpty then (none, ⟨st.orig, s', true⟩)
    else
      let (v, s2) := f st.orig
      (v, ⟨st.orig, s2, st.iterIsEmpty⟩)

/-- State of `PeekableIter`: upstream state plus the lookahead buffer
`_nextItem : std::optional<std::optional<OutType>>`. -/
structure PeekState (σ α : Type) where
  iter : σ
  nextItem : Option (Option α)
  deriving Repr, DecidableEq

/-- Constructing a `PeekableIter` stores the upstream unchanged with an
empty lookahead buffer. -/
def peekableInit (s : σ) : PeekState σ α := ⟨s, none⟩

/-- `PeekableIter::peek`: with an empty buffer, advance the upstream; a
value is cached in `_nextItem` and returned, while on exhaustion the
buffer is reset (left empty) and null is returned.  With a full buffer the
cached optional is returned unchanged. -/
def peek (f : NextFn σ α) : PeekState σ α → Option α × PeekState σ α := fun st =>
  match st.nextItem with
  | some cached => (cached, st)
  | none =>
    match f st.iter with
    | (some v, s') => (some v, ⟨s', some (some v)⟩)
    | (none, s') => (none, ⟨s', none⟩)

/-- `PeekableIter::next_internal`: a buffered lookahead is consumed (the
buffer is cleared); otherwise the upstream is advanced directly. -/
def peekableNext (f : NextFn σ α) : NextFn (PeekState σ α) α := fun st =>
  match st.nextItem with
  | some cached => (cached, ⟨st.iter, none⟩)
  | none =>
    let (v, s') := f st.iter
    (v, ⟨s', none⟩)

/-- State of `FlattenIter`: the outer iterator plus `_innerIter`, the
optional current inner iterator (an upstream item is itself an iterator
state of type `τ`). -/
structure FlattenState (σ τ : Type) where
  iter : σ
  inner : Option τ
  deriving Repr, DecidableEq

/-- The `FlattenIter` constructor: it calls `advance()` immediately, which
advances the outer iterator once to fetch the first inner iterator. -/
def flattenInit (f : NextFn σ τ) (s : σ) : FlattenState σ τ :=
  match f s with
  | (some t, s') => ⟨s', some t⟩
  | (none, s') => ⟨s', none⟩

/-- State of `MapIter`: the upstream iterator (the `_mapFunction` member is
immutable and the `_tmpResult` member only hosts the returned pointer). -/
structure MapState (σ : Type) where
  iter : σ

/-- The `MapIter` constructor stores the upstream unchanged. -/
def mapInit (s : σ) : MapState σ := ⟨s⟩

/-- `MapIter::next_internal`: advance the upstream once; on a value apply
the map function, on exhaustion forward the null. -/
def mapNext (m : α → β) (f : NextFn σ α) : NextFn (MapState σ) β := fun st =>
  match f st.iter with
  | (some v, s') => (some (m v), ⟨s'⟩)
  | (none, s') => (none, ⟨s'⟩)

/-- State of `FilterIter`: the upstream iterator. -/
structure FilterState (σ : Type) where
  iter : σ

/-- The `FilterIter` constructor stores the upstream unchanged. -/
def filterInit (s : σ) : FilterState σ := ⟨s⟩

/-- `FilterIter::next_internal`: the drain loop `while (current =
_iter.next()) if (filter(*current)) return current;`, with an explicit
fuel bound on the number of upstream pulls (the loop itself is unbounded
on an infinite upstream whose items all fail the predicate). -/
def filterNext (p : α → Bool) (f : NextFn σ α) :
    Nat → FilterState σ → Option α × FilterState σ
  | 0, st => (none, st)
  | fuel + 1, st =>
    match f st.iter with
    | (none, s') => (none, ⟨s'⟩)
    | (some v, s') => if p v then (some v, ⟨s'⟩) else filterNext p f fuel ⟨s'⟩

/-- State of `FilterMapIter`: the upstream iterator. -/
structure FilterMapState (σ : Type) where
  iter : σ

/-- The `FilterMapIter` constructor stores the upstream unchanged. -/
def filterMapInit (s : σ) : FilterMapState σ := ⟨s⟩

/-- `FilterMapIter::next_internal`: the drain loop keeping the first
non-empty transformed result, with an explicit fuel bound on upstream
pulls. -/
def filterMapNext (m : α → Option β) (f : NextFn σ α) :
    Nat → FilterMapState σ → Option β × FilterMapState σ
  | 0, st => (none, st)
  | fuel + 1, st =>
    match f st.iter with
    | (none, s') => (none, ⟨s'⟩)
    | (some v, s') =>
      match m v with
      | some w => (some w, ⟨s'⟩)
      | none => filterMapNext m f fuel ⟨s'⟩

/-- State of `ChainIter`: both upstream iterators and `_firstDone`. -/
structure ChainState (σ τ : Type) where
  iter : σ
  chained : τ
  firstDone : Bool

/-- The `ChainIter` constructor stores both upstreams unchanged with
`_firstDone` cleared. -/
def chainInit (s : σ) (t : τ) : ChainState σ τ := ⟨s, t, false⟩

/-- `ChainIter::next_internal`: while the first source is live, forward
its items; the call on which it exhausts sets `_firstDone` and falls
through to one pull of the second source, which serves every later call. -/
def chainNext (f : NextFn σ α) (g : NextFn τ α) : NextFn (ChainState σ τ) α := fun st =>
  if st.firstDone then
    let (w, t') := g st.chained
    (w, ⟨st.iter, t', true⟩)
  else
    match f st.iter with
    | (some v, s') => (some v, ⟨s', st.chained, false⟩)
    | (none, s') =>
      let (w, t') := g st.chained
      (w, ⟨s', t', true⟩)

/-- State of `SkipWhileIter` with a stateful predicate functor (for
`skip(n)` the functor is `Counter`): upstream state, predicate state, and
the `_done` flag set by the first call. -/
structure SkipWhileState (σ π : Type) where
  iter : σ
  pred : π
  done : Bool

/-- The `SkipWhileIter` constructor stores the upstream and predicate
unchanged with `_done` cleared. -/
def skipWhileInit (p0 : π) (s : σ) : SkipWhileState σ π := ⟨s, p0, false⟩

/-- The first-call drain loop of `SkipWhileIter`: pull until the predicate
first fails and yield that item, with an explicit fuel bound on upstream
pulls. -/
def skipDrain (f : NextFn σ α) (p : π → α → Bool × π) :
    Nat → σ → π → Option α × σ × π
  | 0, s, pr => (none, s, pr)
  | fuel + 1, s, pr =>
    match f s with
    | (none, s') => (none, s', pr)
    | (some v, s') =>
      let (b, pr') := p pr v
      if b then skipDrain f p fuel s' pr' else (some v, s', pr')

/-- `SkipWhileIter::next_internal`: the first call drains leading items
while the predicate holds and yields the first failing item; every later
call forwards the upstream directly. -/
def skipWhileNext (f : NextFn σ α) (p : π → α → Bool × π) (fuel : Nat) :
    NextFn (SkipWhileState σ π) α := fun st =>
  if st.done then
    let (v, s') := f st.iter
    (v, ⟨s', st.pred, true⟩)
  else
    let (v, s', pr') := skipDrain f p fuel st.iter st.pred
    (v, ⟨s', pr', true⟩)

/-- State of `InspectIter`: the upstream iterator (the callback observes
items without altering them, so in a pure embedding only the upstream
state matters). -/
structure InspectState (σ : Type) where
  iter : σ

/-- The `InspectIter` constructor stores the upstream unchanged. -/
def inspectInit (s : σ) : InspectState σ := ⟨s⟩

/-- `InspectIter::next_internal`: advance the upstream once and forward
its result unchanged. -/
def inspectNext (f : NextFn σ α) : NextFn (InspectState σ) α := fun st =>
  let (v, s') := f st.iter
  (v, ⟨s'⟩)

/-- State of the `InfiniteRangeGenerator` functor backing `enumerate` and
`infinite_range`: `_value` and `_step`. -/
structure InfRangeGen where
  value : Int
  step : Int

/-- `InfiniteRangeGenerator::operator()`: return the current value and add
the step. -/
def infRangeStep : InfRangeGen → Int × InfRangeGen := fun g =>
  (g.value, ⟨g.value + g.step, g.step⟩)

/-- `IterBase::enumerate`: constructs a `ZipIter` of a fresh infinite
counter `Generator(0, 1)` against the upstream, storing the upstream
unchanged. -/
def enumerateInit (s : σ) : ZipState InfRangeGen σ := zipInit ⟨0, 1⟩ s

/-- The step function of the iterator `enumerate` builds. -/
def enumerateNext (f : NextFn σ α) : NextFn (ZipState InfRangeGen σ) (Int × α) :=
  zipNext (generatorNext infRangeStep) f

/-! ## Comparison consumers -/

/-- `detail::compare`: `-1` / `1` / `0` by `<` and `>`. -/
def compareInt (a b : Int) : Int :=
  if a < b then -1 else if a > b then 1 else 0

/-- `detail::compare_partial`: `0` / `-1` / `1` by `==`, `<`, `>`, and an
empty optional when none of the three holds. -/
def comparePartialInt (a b : Int) : Option Int :=
  if a = b then some 0 else if a < b then some (-1)
  else if a > b then some 1 else none

/-- `IterBase::partial_cmp_by`: the lockstep loop, with an explicit fuel
bound (the outer `none` means the fuel ran out before the loop returned).
Each round advances both iterators; this-exhausted-first returns `-1`,
both-exhausted returns `0`, other-exhausted-first returns `1`, an
incomparable pair returns the empty optional, a non-equal comparison
returns it, and an equal pair continues the loop. -/
def pcmpByLoop (f : NextFn σ α) (g : NextFn τ α) (cmp : α → α → Option Int) :
    Nat → σ → τ → Option (Option Int)
  | 0, _, _ => none
  | fuel + 1, s, t =>
    let (a, s') := f s
    let (b, t') := g t
    match a, b with
    | none, some _ => some (some (-1))
    | none, none => some (some 0)
    | some _, none => some (some 1)
    | some x, some y =>
      match cmp x y with
      | none => some none
      | some c => if c ≠ 0 then some (some c) else pcmpByLoop f g cmp fuel s' t'

/-- `IterBase::cmp_by`: wraps a total comparer in an always-nonempty
partial comparer, runs `partial_cmp_by`, and dereferences the result. -/
def cmpByRun (f : NextFn σ α) (g : NextFn τ α) (cmp : α → α → Int)
    (fuel : Nat) (s : σ) (t : τ) : Option Int :=
  match pcmpByLoop f g (fun a b => some (cmp a b)) fuel s t with
  | some (some c) => some c
  | _ => none

/-! ## Sticky exhaustion -/

/-- One-step stickiness: a call signalling exhaustion is followed by
another exhaustion signal on the very next call. -/
def Sticky1 (f : NextFn σ α) : Prop :=
  ∀ s, (f s).1 = none → (f ((f s).2)).1 = none

/-- Permanent exhaustion: once a call signals exhaustion, every later call
(after any number of further advancements) signals exhaustion as well. -/
def StickyForever (f : NextFn σ α) : Prop :=
  ∀ s, (f s).1 = none → ∀ k, outAt f ((f s).2) k = none

theorem outAt_succ (f : NextFn σ α) (s : σ) (k : Nat) :
    outAt f s (k + 1) = outAt f ((f s).2) k := by
  simp [outAt, iterN]

theorem sticky1_forever (f : NextFn σ α) (h : Sticky1 f) : StickyForever f := by
  intro s hs k
  induction k generalizing s with
  | zero => simpa [outAt, iterN] using h s hs
  | succ k ih =>
    rw [outAt_succ]
    exact ih ((f s).2) (h s hs)

theorem listNext_sticky : Sticky1 (@listNext α) := by
  intro s h
  cases s <;> simp_all [listNext]

theorem finiteGeneratorNext_sticky (gfn : NextFn γ α) :
    Sticky1 (finiteGeneratorNext gfn) := by
  intro s h
  cases hd : s.done with
  | true => simp_all [finiteGeneratorNext]
  | false =>
    rcases hg : gfn s.gen with ⟨v, g'⟩
    cases v <;> simp_all [finiteGeneratorNext]

theorem zipNext_sticky (f : NextFn σ α) (g : NextFn τ β) :
    Sticky1 (zipNext f g) := by
  intro s h
  cases hd : s.anyDone with
  | true => simp_all [zipNext]
  | false =>
    rcases hf : f s.a with ⟨v, s'⟩
    rcases hg : g s.b with ⟨w, t'⟩
    cases v <;> cases w <;> simp_all [zipNext]

theorem takeWhileNext_sticky (f : NextFn σ α) (p : π → α → Bool × π) :
    Sticky1 (takeWhileNext f p) := by
  intro s h
  cases hd : s.done with
  | true => simp_all [takeWhileNext]
  | false =>
    rcases hf : f s.iter with ⟨v, s'⟩
    cases v with
    | none => simp_all [takeWhileNext]
    | some x =>
      rcases hp : p s.pred x with ⟨b, p'⟩
      cases b <;> simp_all [takeWhileNext]

theorem intersperseWithNext_sticky (f : NextFn σ α) (g : π → α × π) :
    Sticky1 (intersperseWithNext f g) := by
  intro s h
  cases hd : s.sepIsNext with
  | true => simp_all [intersperseWithNext]
  | false =>
    cases hn : s.nextResult with
    | some v =>
      rcases hf : f s.iter with ⟨w, s'⟩
      cases w <;> simp_all [intersperseWithNext]
    | none => simp_all [intersperseWithNext]

/-- Claim C1: for the sequences of the library, exhaustion is permanent:
once `next` signals exhaustion, every subsequent `next` call on the same
sequence is well-defined and signals exhaustion again.  Shown for the
finite-generator leaf producer (which backs `range`, `once`, `successors`,
`finite_generator`) and for the `zip`, `take_while` (hence `take`) and
`intersperse` adaptors, each of which is sticky for arbitrary upstreams. -/
theorem c1_exhaustion_is_permanent :
    (∀ (γ α : Type) (gfn : NextFn γ α), StickyForever (finiteGeneratorNext gfn)) ∧
    (∀ (σ τ α β : Type) (f : NextFn σ α) (g : NextFn τ β), StickyForever (zipNext f g)) ∧
    (∀ (σ π α : Type) (f : NextFn σ α) (p : π → α → Bool × π),
      StickyForever (takeWhileNext f p)) ∧
    (∀ (σ π α : Type) (f : NextFn σ α) (g : π → α × π),
      StickyForever (intersperseWithNext f g)) :=
  ⟨fun _ _ gfn => sticky1_forever _ (finiteGeneratorNext_sticky gfn),
   fun _ _ _ _ f g => sticky1_forever _ (zipNext_sticky f g),
   fun _ _ _ f p => sticky1_forever _ (takeWhileNext_sticky f p),
   fun _ _ _ f g => sticky1_forever _ (intersperseWithNext_sticky f g)⟩

/-- Witness for C1: a finite generator that is immediately exhausted keeps
reporting exhaustion three calls later. -/
theorem c1_exhaustion_is_permanent_witness :
    outAt (finiteGeneratorNext (fun u : Unit => ((none : Option Int), u)))
      ((finiteGeneratorNext (fun u : Unit => ((none : Option Int), u)))
        ⟨(), false⟩).2 3 = none :=
  c1_exhaustion_is_permanent.1 Unit Int (fun u => (none, u)) ⟨(), false⟩ rfl 3

/-! ## Construction effects -/

/-- Counterexample for C2: building an `intersperse` stage is not free.
Constructing `IntersperseWithIter` over an instrumented upstream (the list
`[1, 2, 3]` with a pull counter starting at 0) leaves the counter at 1:
the constructor advanced the upstream once to buffer the first item, so
constructing a pipeline stage can run part of the pipeline. -/
theorem c2_construction_counterexample :
    (intersperseWithInit (countedNext (@listNext Int)) (0 : Int)
      ([1, 2, 3], 0)).iter.2 = 1 ∧
    (intersperseWithInit (countedNext (@listNext Int)) (0 : Int)
      ([1, 2, 3], 0)).iter.2 ≠ 0 := by
  constructor <;> decide

theorem pullsLast_succ_of_pos (f : NextFn σ α) (k : Nat) (hk : 1 ≤ k) (s : σ) :
    pullsLast f (k + 1) s = pullsLast f k (f s).2 := by
  cases k with
  | zero => omega
  | succ j => rfl

theorem filterNext_frame (p : α → Bool) (f : NextFn σ α) :
    ∀ (fuel : Nat) (st st' : FilterState σ) (v : α),
      filterNext p f fuel st = (some v, st') →
      p v = true ∧ ∃ k, 1 ≤ k ∧ k ≤ fuel ∧
        pullsLast f k st.iter = (some v, st'.iter) := by
  intro fuel
  induction fuel with
  | zero =>
    intro st st' v h
    simp [filterNext] at h
  | succ fuel ih =>
    intro st st' v h
    rw [filterNext] at h
    rcases h1 : f st.iter with ⟨w, s'⟩
    rw [h1] at h
    cases w with
    | none => simp at h
    | some x =>
      by_cases hp : p x
      · simp only [hp, if_true, Prod.mk.injEq, Option.some.injEq] at h
        rcases h with ⟨hv, hst⟩
        subst hv
        subst hst
        exact ⟨hp, 1, le_refl 1, by omega, by simp [pullsLast, h1]⟩
      · simp only [hp, if_false, Bool.false_eq_true] at h
        rcases ih ⟨s'⟩ st' v h with ⟨hpv, k, hk1, hk2, hpl⟩
        refine ⟨hpv, k + 1, by omega, by omega, ?_⟩
        rw [pullsLast_succ_of_pos f k hk1, h1]
        exact hpl

theorem filterMapNext_frame (m : α → Option β) (f : NextFn σ α) :
    ∀ (fuel : Nat) (st st' : FilterMapState σ) (w : β),
      filterMapNext m f fuel st = (some w, st') →
      ∃ k v, 1 ≤ k ∧ k ≤ fuel ∧
        pullsLast f k st.iter = (some v, st'.iter) ∧ m v = some w := by
  intro fuel
  induction fuel with
  | zero =>
    intro st st' w h
    simp [filterMapNext] at h
  | succ fuel ih =>
    intro st st' w h
    rcases st' with ⟨s2⟩
    rw [filterMapNext] at h
    rcases h1 : f st.iter with ⟨u, s'⟩
    rw [h1] at h
    cases u with
    | none => simp at h
    | some x =>
      rcases h2 : m x with _ | y
      · simp only [h2] at h
        rcases ih ⟨s'⟩ ⟨s2⟩ w h with ⟨k, v, hk1, hk2, hpl, hm⟩
        refine ⟨k + 1, v, by omega, by omega, ?_, hm⟩
        rw [pullsLast_succ_of_pos f k hk1, h1]
        exact hpl
      · simp only [h2, Prod.mk.injEq, Option.some.injEq,
          FilterMapState.mk.injEq] at h
        rcases h with ⟨hw, hs⟩
        subst hw
        subst hs
        exact ⟨1, x, le_refl 1, by omega, by simp [pullsLast, h1], h2⟩

theorem skipDrain_frame (f : NextFn σ α) (p : π → α → Bool × π) :
    ∀ (fuel : Nat) (s : σ) (pr : π) (v : α) (s' : σ) (pr' : π),
      skipDrain f p fuel s pr = (some v, s', pr') →
      ∃ k, 1 ≤ k ∧ k ≤ fuel ∧ pullsLast f k s = (some v, s') := by
  intro fuel
  induction fuel with
  | zero =>
    intro s pr v s' pr' h
    simp [skipDrain] at h
  | succ fuel ih =>
    intro s pr v s' pr' h
    rw [skipDrain] at h
    rcases h1 : f s with ⟨u, s1⟩
    rw [h1] at h
    cases u with
    | none => simp at h
    | some x =>
      rcases h2 : p pr x with ⟨b, pr2⟩
      simp only [h2] at h
      cases b with
      | true =>
        simp at h
        rcases ih s1 pr2 v s' pr' h with ⟨k, hk1, hk2, hpl⟩
        refine ⟨k + 1, by omega, by omega, ?_⟩
        rw [pullsLast_succ_of_pos f k hk1, h1]
        exact hpl
      | false =>
        simp at h
        rcases h with ⟨hv, hs, _⟩
        subst hv
        subst hs
        exact ⟨1, le_refl 1, by omega, by simp [pullsLast, h1]⟩

/-- Claim C2, amended: constructing a pipeline stage runs nothing — for
every adaptor other than `intersperse` / `intersperse_with` and `flatten`
(namely `map`, `filter`, `filter_map`, `chain`, `zip`, `step_by`,
`skip_while`, `take_while` and the `skip` / `take` built on them,
`enumerate`, `inspect`, `cycle`, `peekable`) building it performs no
advancement of its upstream sequence(s); `intersperse` /
`intersperse_with` advances its upstream exactly once at construction to
buffer the first item, and `flatten` advances its outer upstream exactly
once to fetch the first inner sequence.  During operation an adaptor
never requests more than one item ahead of what it needs to produce its
current output, except peekable's single-slot lookahead: `map`, `inspect`,
a live `zip`, a live `take_while`, `step_by`'s first call and `chain`
advance each upstream at most once per call; `intersperse` pre-fetches
exactly one item per real item yielded and touches nothing when emitting
the deferred separator; `peekable` pulls at most one item per `peek` /
`next`; and the draining stages `filter`, `filter_map` and `skip_while`
leave the upstream exactly at the item they yield, never beyond it. -/
theorem c2_construction_is_lazy_amended :
    -- a live zip advances each upstream exactly once per call
    (∀ (σ τ α β : Type) (f : NextFn σ α) (g : NextFn τ β) (st : ZipState σ τ),
      st.anyDone = false →
        (zipNext f g st).2.a = (f st.a).2 ∧ (zipNext f g st).2.b = (g st.b).2) ∧
    -- construction stores the upstream unchanged for every
    -- non-buffering adaptor
    (∀ (σ : Type) (s : σ),
      (mapInit s).iter = s ∧ (filterInit s).iter = s ∧
      (filterMapInit s).iter = s ∧ (inspectInit s).iter = s ∧
      (cycleInit s).orig = s ∧ (cycleInit s).cur = s ∧
      (enumerateInit s).b = s) ∧
    (∀ (σ : Type) (n : Int) (s : σ), (stepByInit n s).iter = s) ∧
    (∀ (σ τ : Type) (s : σ) (t : τ),
      (zipInit s t).a = s ∧ (zipInit s t).b = t ∧
      (chainInit s t).iter = s ∧ (chainInit s t).chained = t) ∧
    (∀ (σ π : Type) (p0 : π) (s : σ),
      (takeWhileInit p0 s).iter = s ∧ (skipWhileInit p0 s).iter = s) ∧
    (∀ (σ α : Type) (s : σ), (@peekableInit σ α s).iter = s) ∧
    -- the two forced exceptions advance the upstream exactly once
    -- at construction
    (∀ (σ π α : Type) (f : NextFn σ α) (g0 : π) (s : σ),
      (intersperseWithInit f g0 s).iter = (f s).2 ∧
      (intersperseWithInit f g0 s).nextResult = (f s).1) ∧
    (∀ (σ τ : Type) (f : NextFn σ τ) (s : σ), (flattenInit f s).iter = (f s).2) ∧
    -- map and inspect advance the upstream exactly once per call and
    -- look no further than the item they transform
    (∀ (σ α β : Type) (m : α → β) (f : NextFn σ α) (st : MapState σ),
      (mapNext m f st).2.iter = (f st.iter).2 ∧
      (mapNext m f st).1 = ((f st.iter).1).map m) ∧
    (∀ (σ α : Type) (f : NextFn σ α) (st : InspectState σ),
      (inspectNext f st).2.iter = (f st.iter).2 ∧
      (inspectNext f st).1 = (f st.iter).1) ∧
    -- chain advances each of its two upstreams at most once per call
    (∀ (σ τ α : Type) (f : NextFn σ α) (g : NextFn τ α) (st : ChainState σ τ),
      (st.firstDone = true →
        (chainNext f g st).2.iter = st.iter ∧
        (chainNext f g st).2.chained = (g st.chained).2) ∧
      (st.firstDone = false → ∀ v : α, (f st.iter).1 = some v →
        (chainNext f g st).2.iter = (f st.iter).2 ∧
        (chainNext f g st).2.chained = st.chained) ∧
      (st.firstDone = false → (f st.iter).1 = none →
        (chainNext f g st).2.iter = (f st.iter).2 ∧
        (chainNext f g st).2.chained = (g st.chained).2)) ∧
    -- take_while pulls exactly one item per live call and none once done
    (∀ (σ π α : Type) (f : NextFn σ α) (p : π → α → Bool × π)
      (st : TakeWhileState σ π),
      (st.done = false → (takeWhileNext f p st).2.iter = (f st.iter).2) ∧
      (st.done = true → (takeWhileNext f p st).2 = st)) ∧
    -- step_by's first valid call forwards exactly one upstream item
    (∀ (σ α : Type) (f : NextFn σ α) (n : Int) (st : StepByState σ),
      st.invalid = false → st.first = true →
        (stepByNext f n st).2.iter = (f st.iter).2 ∧
        (stepByNext f n st).1 = (f st.iter).1) ∧
    -- intersperse: emitting the deferred separator touches nothing,
    -- yielding a real item pre-fetches exactly one, exhaustion is inert
    (∀ (σ π α : Type) (f : NextFn σ α) (g : π → α × π)
      (st : IntersperseState σ π α),
      (st.sepIsNext = true → (intersperseWithNext f g st).2.iter = st.iter) ∧
      (st.sepIsNext = false → ∀ v : α, st.nextResult = some v →
        (intersperseWithNext f g st).2.iter = (f st.iter).2) ∧
      (st.sepIsNext = false → st.nextResult = none →
        (intersperseWithNext f g st).2 = st)) ∧
    -- peekable pulls at most one item per peek or next: none when the
    -- single lookahead slot is full, exactly one when it is empty
    (∀ (σ α : Type) (f : NextFn σ α) (st : PeekState σ α),
      (∀ nv : Option α, st.nextItem = some nv →
        (peek f st).2 = st ∧ (peekableNext f st).2.iter = st.iter) ∧
      (st.nextItem = none →
        (peek f st).2.iter = (f st.iter).2 ∧
        (peekableNext f st).2.iter = (f st.iter).2)) ∧
    -- the draining stages examine items one at a time and leave the
    -- upstream exactly at the item they yield, never pulling beyond it
    (∀ (σ α : Type) (p : α → Bool) (f : NextFn σ α) (fuel : Nat)
      (st st' : FilterState σ) (v : α),
      filterNext p f fuel st = (some v, st') →
        p v = true ∧ ∃ k, 1 ≤ k ∧ k ≤ fuel ∧
          pullsLast f k st.iter = (some v, st'.iter)) ∧
    (∀ (σ α β : Type) (m : α → Option β) (f : NextFn σ α) (fuel : Nat)
      (st st' : FilterMapState σ) (w : β),
      filterMapNext m f fuel st = (some w, st') →
        ∃ k v, 1 ≤ k ∧ k ≤ fuel ∧
          pullsLast f k st.iter = (some v, st'.iter) ∧ m v = some w) ∧
    (∀ (σ π α : Type) (f : NextFn σ α) (p : π → α → Bool × π) (fuel : Nat)
      (st : SkipWhileState σ π),
      (st.done = true →
        (skipWhileNext f p fuel st).2.iter = (f st.iter).2 ∧
        (skipWhileNext f p fuel st).1 = (f st.iter).1) ∧
      (st.done = false → ∀ v : α,
        (skipWhileNext f p fuel st).1 = some v →
        ∃ k, 1 ≤ k ∧ k ≤ fuel ∧
          pullsLast f k st.iter = (some v, (skipWhileNext f p fuel st).2.iter))) := by
  refine ⟨?_, fun _ s => ⟨rfl, rfl, rfl, rfl, rfl, rfl, rfl⟩, fun _ n s => rfl,
    fun _ _ s t => ⟨rfl, rfl, rfl, rfl⟩, fun _ _ p0 s => ⟨rfl, rfl⟩,
    fun _ _ s => rfl, ?_, ?_, ?_, ?_, ?_, ?_, ?_, ?_, ?_,
    fun _ _ p f fuel st st' v h => filterNext_frame p f fuel st st' v h,
    fun _ _ _ m f fuel st st' w h => filterMapNext_frame m f fuel st st' w h, ?_⟩
  · intro σ τ α β f g st h
    rcases hf : f st.a with ⟨v, s'⟩
    rcases hg : g st.b with ⟨w, t'⟩
    cases v <;> cases w <;> simp_all [zipNext]
  · intro σ π α f g0 s
    unfold intersperseWithInit
    exact ⟨rfl, rfl⟩
  · intro σ τ f s
    unfold flattenInit
    rcases hf : f s with ⟨v, s'⟩
    cases v <;> simp [hf]
  · intro σ α β m f st
    rcases h : f st.iter with ⟨v, s'⟩
    cases v <;> simp [mapNext, h]
  · intro σ α f st
    rcases h : f st.iter with ⟨v, s'⟩
    simp [inspectNext, h]
  · intro σ τ α f g st
    refine ⟨?_, ?_, ?_⟩
    · intro hd
      rcases hg : g st.chained with ⟨w, t'⟩
      simp [chainNext, hd, hg]
    · intro hd v hv
      rcases h : f st.iter with ⟨u, s'⟩
      rw [h] at hv
      simp only at hv
      subst hv
      simp [chainNext, hd, h]
    · intro hd hn
      rcases h : f st.iter with ⟨u, s'⟩
      rw [h] at hn
      simp only at hn
      subst hn
      rcases hg : g st.chained with ⟨w, t'⟩
      simp [chainNext, hd, h, hg]
  · intro σ π α f p st
    refine ⟨?_, ?_⟩
    · intro hd
      rcases h : f st.iter with ⟨v, s'⟩
      cases v with
      | none => simp [takeWhileNext, hd, h]
      | some x =>
        rcases hp : p st.pred x with ⟨b, p'⟩
        cases b <;> simp [takeWhileNext, hd, h, hp]
    · intro hd
      simp [takeWhileNext, hd]
  · intro σ α f n st hinv hfirst
    rcases h : f st.iter with ⟨v, s'⟩
    simp [stepByNext, hinv, hfirst, h]
  · intro σ π α f g st
    refine ⟨?_, ?_, ?_⟩
    · intro hd
      rcases hg : g st.getter with ⟨sep, g'⟩
      simp [intersperseWithNext, hd, hg]
    · intro hd v hv
      rcases h : f st.iter with ⟨w, s'⟩
      cases w <;> simp [intersperseWithNext, hd, hv, h]
    · intro hd hn
      simp [intersperseWithNext, hd, hn]
  · intro σ α f st
    refine ⟨?_, ?_⟩
    · intro nv hnv
      refine ⟨?_, ?_⟩ <;> simp [peek, peekableNext, hnv]
    · intro hd
      rcases h : f st.iter with ⟨v, s'⟩
      cases v <;> simp [peek, peekableNext, hd, h]
  · intro σ π α f p fuel st
    refine ⟨?_, ?_⟩
    · intro hd
      rcases h : f st.iter with ⟨v, s'⟩
      simp [skipWhileNext, hd, h]
    · intro hd v hv
      rcases hdr : skipDrain f p fuel st.iter st.pred with ⟨u, s', pr'⟩
      have hout : skipWhileNext f p fuel st = (u, ⟨s', pr', true⟩) := by
        simp [skipWhileNext, hd, hdr]
      rw [hout] at hv
      simp only at hv
      subst hv
      rcases skipDrain_frame f p fuel st.iter st.pred v s' pr' hdr with
        ⟨k, hk1, hk2, hpl⟩
      refine ⟨k, hk1, hk2, ?_⟩
      rw [hout]
      exact hpl

/-- Witness for C2 (amended): the live-`zip` single-pull part applied to
two concrete list upstreams. -/
theorem c2_construction_is_lazy_amended_witness :
    (zipNext (@listNext Int) (@listNext Int)
      (zipInit [1, 2] [5, 6, 7])).2.a = [2] ∧
    (zipNext (@listNext Int) (@listNext Int)
      (zipInit [1, 2] [5, 6, 7])).2.b = [6, 7] :=
  c2_construction_is_lazy_amended.1 (List Int) (List Int) Int Int
    listNext listNext (zipInit [1, 2] [5, 6, 7]) rfl

/-! ## Zip -/

theorem zip_run (a : List α) (b : List β) :
    collectN (zipNext listNext listNext) (zipInit a b)
      (min a.length b.length + 1) = a.zip b ∧
    iterN (zipNext listNext listNext) (zipInit a b)
      (min a.length b.length + 1) =
      ⟨a.drop (min a.length b.length + 1),
       b.drop (min a.length b.length + 1), true⟩ := by
  induction a generalizing b with
  | nil =>
    cases b <;>
      simp [collectN, iterN, zipNext, zipInit, listNext]
  | cons x xs ih =>
    cases b with
    | nil => simp [collectN, iterN, zipNext, zipInit, listNext]
    | cons y ys =>
      have hmin : min (x :: xs).length (y :: ys).length =
          min xs.length ys.length + 1 := by
        simp [Nat.succ_min_succ]
      rcases ih ys with ⟨hc, hs⟩
      constructor
      · rw [hmin]
        simpa [collectN, zipNext, zipInit, listNext] using hc
      · rw [hmin]
        simpa [iterN, zipNext, zipInit, listNext] using hs

/-- Claim C3: `zip(A, B)` over in-memory sources `A` and `B` yields exactly
`min (length A) (length B)` pairs, pairing the i-th items of both sources
in order; the run that exhausts it advances both upstreams one step past
the last pair (the final state drops `min + 1` items from each source, so
the longer source's item pulled at the exhausting step is discarded), and
the `_anyDone` flag is set. -/
theorem c3_zip_min_length :
    ∀ (α β : Type) (a : List α) (b : List β),
      collectN (zipNext listNext listNext) (zipInit a b)
        (min a.length b.length + 1) = a.zip b ∧
      (a.zip b).length = min a.length b.length ∧
      (∀ (i : Nat) (z : α × β),
        (a.zip b).get? i = some z ↔ a.get? i = some z.1 ∧ b.get? i = some z.2) ∧
      iterN (zipNext listNext listNext) (zipInit a b)
        (min a.length b.length + 1) =
        ⟨a.drop (min a.length b.length + 1),
         b.drop (min a.length b.length + 1), true⟩ := by
  intro α β a b
  rcases zip_run a b with ⟨hc, hs⟩
  exact ⟨hc, List.length_zip a b, fun i z => List.get?_zip_eq_some a b z i, hs⟩

/-! ## Lexicographic comparison -/

/-- Modelled from the spec's description of the lexicographic walk (the
claim's wording), for comparison with the loop in the code: if one
sequence exhausts first it is less; if both exhaust together they are
equal; otherwise the first non-equal (or incomparable) pair decides. -/
def lexPcmpSpec (pcmp : α → α → Option Int) : List α → List α → Option Int
  | [], [] => some 0
  | [], _ :: _ => some (-1)
  | _ :: _, [] => some 1
  | a :: as, b :: bs =>
    match pcmp a b with
    | none => none
    | some c => if c ≠ 0 then some c else lexPcmpSpec pcmp as bs

/-- The total variant of the spec-side lexicographic walk, used by `cmp`
and `cmp_by`. -/
def lexCmpSpec (cmp : α → α → Int) : List α → List α → Int
  | [], [] => 0
  | [], _ :: _ => -1
  | _ :: _, [] => 1
  | a :: as, b :: bs => if cmp a b ≠ 0 then cmp a b else lexCmpSpec cmp as bs

theorem pcmpByLoop_eq_spec (pcmp : α → α → Option Int) (a b : List α) :
    pcmpByLoop listNext listNext pcmp (a.length + 1) a b =
      some (lexPcmpSpec pcmp a b) := by
  induction a generalizing b with
  | nil => cases b <;> simp [pcmpByLoop, lexPcmpSpec, listNext]
  | cons x xs ih =>
    cases b with
    | nil => simp [pcmpByLoop, lexPcmpSpec, listNext]
    | cons y ys =>
      rcases hc : pcmp x y with _ | c
      · simp [pcmpByLoop, lexPcmpSpec, listNext, hc]
      · by_cases h0 : c = 0
        · subst h0
          simpa [pcmpByLoop, lexPcmpSpec, listNext, hc] using ih ys
        · simp [pcmpByLoop, lexPcmpSpec, listNext, hc, h0]

theorem lexPcmpSpec_lift (cmp : α → α → Int) (a b : List α) :
    lexPcmpSpec (fun x y => some (cmp x y)) a b = some (lexCmpSpec cmp a b) := by
  induction a generalizing b with
  | nil => cases b <;> simp [lexPcmpSpec, lexCmpSpec]
  | cons x xs ih =>
    cases b with
    | nil => simp [lexPcmpSpec, lexCmpSpec]
    | cons y ys =>
      by_cases h0 : cmp x y = 0 <;> simp [lexPcmpSpec, lexCmpSpec, h0, ih]

theorem comparePartialInt_total (a b : Int) :
    comparePartialInt a b = some (compareInt a b) := by
  simp only [comparePartialInt, compareInt]
  split_ifs <;> first | rfl | omega

/-- Claim C4: the comparison loop shared by `cmp`, `cmp_by`, `partial_cmp`
and `partial_cmp_by` performs the lexicographic lockstep walk: over
in-memory sources it terminates within `length + 1` rounds and returns
exactly the spec-side lexicographic result (exhausting first is less,
`-1`; the other exhausting first is greater, `1`; both together is equal,
`0`; otherwise the first non-equal or incomparable pair decides).  In
particular comparing `[0,1]` against `range(0,10)` yields `-1`. -/
theorem c4_lexicographic_walk :
    (∀ (α : Type) (pcmp : α → α → Option Int) (a b : List α),
      pcmpByLoop listNext listNext pcmp (a.length + 1) a b =
        some (lexPcmpSpec pcmp a b)) ∧
    (∀ a b : List Int,
      pcmpByLoop listNext listNext comparePartialInt (a.length + 1) a b =
        some (some (lexCmpSpec compareInt a b)) ∧
      cmpByRun listNext listNext compareInt (a.length + 1) a b =
        some (lexCmpSpec compareInt a b)) ∧
    cmpByRun listNext rangeNext compareInt 3 [0, 1] (rangeIter 0 10) = some (-1) ∧
    lexCmpSpec compareInt [0, 1] [0, 1, 2, 3, 4, 5, 6, 7, 8, 9] = -1 := by
  have hfun : comparePartialInt = fun a b : Int => some (compareInt a b) := by
    funext a b
    exact comparePartialInt_total a b
  refine ⟨fun α pcmp a b => pcmpByLoop_eq_spec pcmp a b, fun a b => ⟨?_, ?_⟩, ?_, ?_⟩
  · rw [hfun, pcmpByLoop_eq_spec, lexPcmpSpec_lift]
  · rw [cmpByRun, pcmpByLoop_eq_spec, lexPcmpSpec_lift]
  · decide
  · decide

/-! ## step_by -/

theorem stepByNext_invalid (f : NextFn σ α) (n : Int) (st : StepByState σ)
    (h : st.invalid = true) : stepByNext f n st = (none, st) := by
  simp [stepByNext, h]

/-- Claim C5: for any upstream and any step value `n ≤ 0`, `step_by(n)` is
empty from the very first advancement call and stays empty, and its state
— including the stored upstream — never changes, so the upstream is never
pulled. -/
theorem c5_step_by_nonpositive_empty :
    ∀ (σ α : Type) (f : NextFn σ α) (s : σ) (n : Int), n ≤ 0 →
      ∀ k : Nat,
        iterN (stepByNext f n) (stepByInit n s) k = stepByInit n s ∧
        outAt (stepByNext f n) (stepByInit n s) k = none := by
  intro σ α f s n hn k
  have hinv : (@stepByInit σ n s).invalid = true := by
    simp [stepByInit, hn]
  have hstep := stepByNext_invalid f n (stepByInit n s) hinv
  have hiter : ∀ j : Nat, iterN (stepByNext f n) (stepByInit n s) j = stepByInit n s := by
    intro j
    induction j with
    | zero => rfl
    | succ j ih =>
      have : iterN (stepByNext f n) (stepByInit n s) (j + 1) =
          iterN (stepByNext f n) ((stepByNext f n (stepByInit n s)).2) j := rfl
      rw [this, hstep]
      exact ih
  refine ⟨hiter k, ?_⟩
  rw [outAt, hiter k, hstep]

/-- Witness for C5: `step_by(-2)` over the list `[1, 2, 3]` has not
touched its upstream after five advancement calls, all exhausted. -/
theorem c5_step_by_nonpositive_empty_witness :
    iterN (stepByNext (@listNext Int) (-2)) (stepByInit (-2) [1, 2, 3]) 5 =
      stepByInit (-2) [1, 2, 3] ∧
    outAt (stepByNext (@listNext Int) (-2)) (stepByInit (-2) [1, 2, 3]) 5 = none :=
  c5_step_by_nonpositive_empty (List Int) Int listNext [1, 2, 3] (-2) (by decide) 5

theorem pullsLast_list (k : Nat) (xs : List α) :
    pullsLast listNext (k + 1) xs = ((xs.drop k).head?, xs.drop (k + 1)) := by
  induction k generalizing xs with
  | zero => cases xs <;> simp [pullsLast, listNext]
  | succ k ih =>
    cases xs with
    | nil =>
      have h0 : (listNext ([] : List α)).2 = [] := rfl
      simp [pullsLast, h0, ih]
    | cons x xs' =>
      have h0 : (listNext (x :: xs')).2 = xs' := rfl
      simp [pullsLast, h0, ih]

/-- The items an upstream list contributes to `step_by(n)`: the head, then
every `n`-th element after it (positions `0, n, 2n, ...`). -/
def strideList (n : Nat) : List α → List α
  | [] => []
  | x :: xs => x :: strideList n (xs.drop (n - 1))
termination_by l => l.length
decreasing_by
  simp only [List.length_drop, List.length_cons]
  omega

theorem strideList_get (n : Nat) (hn : 1 ≤ n) :
    ∀ (l : List α) (i : Nat), (strideList n l).get? i = l.get? (i * n)
  | [], i => by simp [strideList]
  | x :: xs, 0 => by simp [strideList]
  | x :: xs, i + 1 => by
    obtain ⟨m, rfl⟩ : ∃ m, n = m + 1 := ⟨n - 1, by omega⟩
    have ih := strideList_get (m + 1) hn (xs.drop m) i
    have harith : (i + 1) * (m + 1) = (m + i * (m + 1)) + 1 := by ring
    simp only [strideList, Nat.add_sub_cancel, List.get?_cons_succ, harith]
    rw [ih, List.get?_drop]
termination_by l _ => l.length
decreasing_by
  simp only [List.length_drop, List.length_cons]
  omega

theorem stepBy_run (n : Int) (hn : 1 ≤ n) :
    ∀ (fuel : Nat) (xs : List α), xs.length + 1 ≤ fuel →
      collectN (stepByNext listNext n) ⟨xs, false, false⟩ fuel =
        strideList n.toNat (xs.drop (n.toNat - 1)) := by
  intro fuel
  induction fuel with
  | zero => intro xs h; omega
  | succ fuel ih =>
    intro xs hlen
    obtain ⟨m, hm⟩ : ∃ m : Nat, n.toNat = m + 1 := ⟨n.toNat - 1, by omega⟩
    have hstep : stepByNext listNext n ⟨xs, false, false⟩ =
        ((xs.drop (n.toNat - 1)).head?, ⟨xs.drop n.toNat, false, false⟩) := by
      have hp := pullsLast_list m xs
      simp only [stepByNext, hm, Nat.add_sub_cancel] at hp ⊢
      simp [hp]
    cases hd : xs.drop (n.toNat - 1) with
    | nil =>
      rw [collectN]
      rw [hstep, hd]
      simp [strideList]
    | cons z rest =>
      have hrest : rest = xs.drop n.toNat := by
        have htl := List.tail_drop xs (n.toNat - 1)
        rw [hd] at htl
        simpa [show n.toNat - 1 + 1 = n.toNat by omega] using htl
      have hlen' : (xs.drop n.toNat).length + 1 ≤ fuel := by
        have hxs : 1 ≤ xs.length := by
          cases xs with
          | nil => simp at hd
          | cons _ _ => simp
        simp only [List.length_drop]
        omega
      have hcol : collectN (stepByNext listNext n) ⟨xs, false, false⟩ (fuel + 1) =
          z :: collectN (stepByNext listNext n) ⟨xs.drop n.toNat, false, false⟩ fuel := by
        rw [collectN, hstep, hd]
        rfl
      rw [hcol, ih (xs.drop n.toNat) hlen']
      simp only [strideList]
      rw [hrest]

/-- Claim C6: for every step value `n ≥ 1` and every in-memory upstream,
`step_by(n)` yields the upstream items at positions `0, n, 2n, ...`
(first item first, then striding by `n`); in particular
`range(0,10).step_by(3)` yields exactly `[0, 3, 6, 9]`. -/
theorem c6_step_by_strides :
    (∀ (α : Type) (n : Int) (l : List α), 1 ≤ n →
      collectN (stepByNext listNext n) (stepByInit n l) (l.length + 1) =
        strideList n.toNat l ∧
      ∀ i : Nat, (strideList n.toNat l).get? i = l.get? (i * n.toNat)) ∧
    collectN (stepByNext rangeNext 3) (stepByInit 3 (rangeIter 0 10)) 11 =
      [0, 3, 6, 9] := by
  refine ⟨?_, by decide⟩
  intro α n l hn
  have hnn : 1 ≤ n.toNat := by omega
  refine ⟨?_, strideList_get n.toNat hnn l⟩
  have hinv : decide (n ≤ 0) = false := by simp; omega
  cases l with
  | nil =>
    have : stepByNext listNext n (stepByInit n ([] : List α)) =
        (none, ⟨[], false, false⟩) := by
      simp [stepByNext, stepByInit, hinv, listNext]
    rw [collectN, this]
    simp [strideList]
  | cons x xs =>
    have hfst : stepByNext listNext n (stepByInit n (x :: xs)) =
        (some x, ⟨xs, false, false⟩) := by
      simp [stepByNext, stepByInit, hinv, listNext]
    rw [collectN, hfst]
    simp only [List.length_cons]
    rw [stepBy_run n hn (xs.length + 1) xs (by omega)]
    simp [strideList]

/-- Witness for C6: `step_by(3)` over `[0,1,2,3,4,5,6,7]` yields
`[0, 3, 6]`, and the element at output index 2 is the upstream element at
position 6. -/
theorem c6_step_by_strides_witness :
    collectN (stepByNext (@listNext Int) 3) (stepByInit 3 [0, 1, 2, 3, 4, 5, 6, 7]) 9 =
      strideList 3 [0, 1, 2, 3, 4, 5, 6, 7] ∧
    (strideList (3 : Int).toNat [(0 : Int), 1, 2, 3, 4, 5, 6, 7]).get? 2 =
      [(0 : Int), 1, 2, 3, 4, 5, 6, 7].get? 6 :=
  ⟨(c6_step_by_strides.1 Int 3 [0, 1, 2, 3, 4, 5, 6, 7] (by decide)).1,
   (c6_step_by_strides.1 Int 3 [0, 1, 2, 3, 4, 5, 6, 7] (by decide)).2 2⟩

/-! ## cycle -/

theorem cycle_empty_aux (f : NextFn σ α) (hf : Sticky1 f) (o : σ) :
    ∀ (k : Nat) (t : σ), (f t).1 = none →
      outAt (cycleNext f) ⟨o, t, true⟩ k = none := by
  intro k
  induction k with
  | zero =>
    intro t ht
    rcases h : f t with ⟨v, t'⟩
    rw [h] at ht
    simp only at ht
    subst ht
    simp [outAt, iterN, cycleNext, h]
  | succ k ih =>
    intro t ht
    rcases h : f t with ⟨v, t'⟩
    rw [h] at ht
    simp only at ht
    subst ht
    have hstep : cycleNext f ⟨o, t, true⟩ = (none, ⟨o, t', true⟩) := by
      simp [cycleNext, h]
    rw [outAt_succ, hstep]
    refine ih t' ?_
    have := hf t ?_
    · rw [h] at this
      exact this
    · rw [h]

/-- Claim C7: `cycle` repeats the upstream by restarting from the pristine
copy on exhaustion — taking 10 items of `cycle(range(0,3))` yields
`[0,1,2,0,1,2,0,1,2,0]` — and if the very first pull of a sticky upstream
is already exhausted, every advancement of the cycled sequence signals
exhaustion (it never loops on an empty source). -/
theorem c7_cycle_repeats :
    collectN (takeWhileNext (cycleNext rangeNext) counterPred)
      (takeWhileInit ⟨0, 10⟩ (cycleInit (rangeIter 0 3))) 11 =
      [0, 1, 2, 0, 1, 2, 0, 1, 2, 0] ∧
    ∀ (σ α : Type) (f : NextFn σ α) (s : σ), Sticky1 f → (f s).1 = none →
      ∀ k : Nat, outAt (cycleNext f) (cycleInit s) k = none := by
  refine ⟨by decide, ?_⟩
  intro σ α f s hf hs k
  rcases h : f s with ⟨v, s'⟩
  rw [h] at hs
  simp only at hs
  subst hs
  have hstep : cycleNext f (cycleInit s) = (none, ⟨s, s', true⟩) := by
    simp [cycleNext, cycleInit, h]
  have hs' : (f s').1 = none := by
    have := hf s (by rw [h])
    rw [h] at this
    exact this
  cases k with
  | zero => simp [outAt, iterN, hstep]
  | succ k =>
    rw [outAt_succ, hstep]
    exact cycle_empty_aux f hf s k s' hs'

/-- Witness for C7: cycling the empty range `range(0,0)` still signals
exhaustion on the fifth advancement call. -/
theorem c7_cycle_repeats_witness :
    outAt (cycleNext rangeNext) (cycleInit (rangeIter 0 0)) 4 = none :=
  c7_cycle_repeats.2 (FiniteGenState FiniteRangeGen) Int rangeNext (rangeIter 0 0)
    (finiteGeneratorNext_sticky (finiteRangeStep false)) (by decide) 4

/-! ## intersperse -/

theorem collectN_step_some (f : NextFn σ α) {s s' : σ} {v : α}
    (h : f s = (some v, s')) (fuel : Nat) :
    collectN f s (fuel + 1) = v :: collectN f s' fuel := by
  rw [collectN, h]

theorem collectN_step_none (f : NextFn σ α) {s s' : σ}
    (h : f s = (none, s')) (fuel : Nat) :
    collectN f s (fuel + 1) = [] := by
  rw [collectN, h]

theorem intersperse_done (g : α) :
    ∀ (fuel : Nat) (t : List α),
      collectN (intersperseWithNext listNext getterFn) ⟨t, g, none, false⟩ fuel = [] := by
  intro fuel t
  cases fuel <;> simp [collectN, intersperseWithNext]

theorem intersperse_run (sep : α) :
    ∀ (r : List α) (v : α) (fuel : Nat), 2 * r.length + 1 ≤ fuel →
      collectN (intersperseWithNext listNext getterFn) ⟨r, sep, some v, false⟩ fuel =
        List.intersperse sep (v :: r) := by
  intro r
  induction r with
  | nil =>
    intro v fuel hf
    obtain ⟨f1, rfl⟩ : ∃ f1, fuel = f1 + 1 := ⟨fuel - 1, by omega⟩
    have hstep : intersperseWithNext (@listNext α) getterFn ⟨[], sep, some v, false⟩ =
        (some v, ⟨[], sep, none, false⟩) := by
      simp [intersperseWithNext, listNext]
    rw [collectN_step_some _ hstep, intersperse_done]
    simp
  | cons y ys ih =>
    intro v fuel hf
    obtain ⟨f2, rfl⟩ : ∃ f2, fuel = f2 + 2 := ⟨fuel - 2, by simp at hf; omega⟩
    have hstep1 : intersperseWithNext (@listNext α) getterFn
        ⟨y :: ys, sep, some v, false⟩ = (some v, ⟨ys, sep, some y, true⟩) := by
      simp [intersperseWithNext, listNext]
    have hstep2 : intersperseWithNext (@listNext α) getterFn
        ⟨ys, sep, some y, true⟩ = (some sep, ⟨ys, sep, some y, false⟩) := by
      simp [intersperseWithNext, getterFn]
    rw [show f2 + 2 = (f2 + 1) + 1 by omega, collectN_step_some _ hstep1,
      collectN_step_some _ hstep2]
    rw [ih y f2 (by simp at hf ⊢; omega)]
    rw [List.intersperse_cons_cons]

theorem intersperse_length (sep : α) :
    ∀ l : List α, (List.intersperse sep l).length = 2 * l.length - 1
  | [] => by simp
  | [x] => by simp
  | x :: y :: rest => by
    rw [List.intersperse_cons_cons]
    have ih := intersperse_length sep (y :: rest)
    simp only [List.length_cons] at ih ⊢
    omega

theorem intersperse_get_even (sep : α) :
    ∀ (l : List α) (i : Nat), (List.intersperse sep l).get? (2 * i) = l.get? i
  | [], i => by simp
  | [x], 0 => by simp
  | [x], i + 1 => by
    rw [List.intersperse_singleton]
    rw [List.get?_eq_none.2 (by simp; omega), List.get?_eq_none.2 (by simp)]
  | x :: y :: rest, 0 => by simp [List.intersperse_cons_cons]
  | x :: y :: rest, i + 1 => by
    rw [List.intersperse_cons_cons]
    have ih := intersperse_get_even sep (y :: rest) i
    rw [show 2 * (i + 1) = (2 * i + 1) + 1 by omega]
    simpa using ih

theorem intersperse_get_odd (sep : α) :
    ∀ (l : List α) (i : Nat), i + 1 < l.length →
      (List.intersperse sep l).get? (2 * i + 1) = some sep
  | [], i => by simp
  | [x], i => by simp
  | x :: y :: rest, 0 => by simp [List.intersperse_cons_cons]
  | x :: y :: rest, i + 1 => by
    intro h
    rw [List.intersperse_cons_cons]
    have ih := intersperse_get_odd sep (y :: rest) i (by simp at h ⊢; omega)
    rw [show 2 * (i + 1) + 1 = (2 * i + 1 + 1) + 1 by omega]
    simpa using ih

/-- Claim C8: `intersperse(sep)` over an in-memory upstream of length `L`
yields exactly `List.intersperse sep` of it: `2L − 1` items when `L ≥ 1`
and no items when `L = 0`, with the upstream items at even positions and
the separator at every in-range odd position — never before the first item
nor after the last. -/
theorem c8_intersperse_between :
    ∀ (α : Type) (sep : α) (l : List α),
      collectN (intersperseWithNext listNext getterFn)
        (intersperseWithInit listNext sep l) (2 * l.length + 1) =
        List.intersperse sep l ∧
      (List.intersperse sep l).length = 2 * l.length - 1 ∧
      (l = [] → List.intersperse sep l = []) ∧
      (∀ i : Nat, (List.intersperse sep l).get? (2 * i) = l.get? i) ∧
      (∀ i : Nat, i + 1 < l.length →
        (List.intersperse sep l).get? (2 * i + 1) = some sep) := by
  intro α sep l
  refine ⟨?_, intersperse_length sep l, fun h => by simp [h],
    intersperse_get_even sep l, intersperse_get_odd sep l⟩
  cases l with
  | nil =>
    have hinit : intersperseWithInit (@listNext α) sep [] =
        ⟨[], sep, none, false⟩ := by
      simp [intersperseWithInit, listNext]
    rw [hinit, intersperse_done]
    simp
  | cons x xs =>
    have hinit : intersperseWithInit (@listNext α) sep (x :: xs) =
        ⟨xs, sep, some x, false⟩ := by
      simp [intersperseWithInit, listNext]
    rw [hinit, intersperse_run sep xs x _ (by simp only [List.length_cons]; omega)]

/-- Witness for C8: `range(0,10).intersperse(-1)` content over the list
`[0,1,2,3]`, plus the positional facts at concrete indices. -/
theorem c8_intersperse_between_witness :
    collectN (intersperseWithNext listNext getterFn)
      (intersperseWithInit listNext (-1 : Int) [0, 1, 2, 3]) 9 =
      List.intersperse (-1 : Int) [0, 1, 2, 3] ∧
    (List.intersperse (-1 : Int) [0, 1, 2, 3]).length = 7 ∧
    (List.intersperse (-1 : Int) [0, 1, 2, 3]).get? 4 = some 2 ∧
    (List.intersperse (-1 : Int) [0, 1, 2, 3]).get? 3 = some (-1) :=
  ⟨(c8_intersperse_between Int (-1) [0, 1, 2, 3]).1,
   (c8_intersperse_between Int (-1) [0, 1, 2, 3]).2.1,
   (c8_intersperse_between Int (-1) [0, 1, 2, 3]).2.2.2.1 2,
   (c8_intersperse_between Int (-1) [0, 1, 2, 3]).2.2.2.2 1 (by decide)⟩

/-! ## peekable -/

/-- Counterexample for C9: `peek` does not cache exhaustion.  Peeking
twice on a peekable over an instrumented empty upstream (pull counter
starting at 0) leaves the counter at 2: the second peek re-touched the
upstream sequence even though no advancement happened in between. -/
theorem c9_peek_counterexample :
    ((peek (countedNext (@listNext Int))
      ((peek (countedNext (@listNext Int))
        ⟨(([] : List Int), 0), none⟩).2)).2).iter.2 = 2 ∧
    ((peek (countedNext (@listNext Int))
      ((peek (countedNext (@listNext Int))
        ⟨(([] : List Int), 0), none⟩).2)).2).iter.2 ≠ 1 := by
  constructor <;> decide

/-- Claim C9, amended: on a peekable over a sticky upstream, two
consecutive `peek` calls with no intervening advancement return the
identical result (both the same value, or both exhausted) and do not
change the remaining items; when the first peek returns a value the
second peek is a complete no-op (the lookahead slot serves it without
re-touching the upstream), but when the sequence is exhausted the
lookahead is not cached, and each further peek advances the sticky
upstream again. -/
theorem c9_peek_amended :
    ∀ (σ α : Type) (f : NextFn σ α) (st : PeekState σ α), Sticky1 f →
      (peek f (peek f st).2).1 = (peek f st).1 ∧
      (∀ v : α, (peek f st).1 = some v → peek f (peek f st).2 = peek f st) ∧
      (∀ n : Nat, collectN (peekableNext f) (peek f (peek f st).2).2 n =
        collectN (peekableNext f) st n) := by
  intro σ α f st hf
  rcases st with ⟨s, cache⟩
  cases cache with
  | some nv =>
    refine ⟨rfl, fun v hv => rfl, fun n => rfl⟩
  | none =>
    rcases h : f s with ⟨v, s'⟩
    cases v with
    | some x =>
      have hp1 : peek f ⟨s, none⟩ = (some x, ⟨s', some (some x)⟩) := by
        simp [peek, h]
      have hp2 : peek f ⟨s', some (some x)⟩ = (some x, ⟨s', some (some x)⟩) := by
        simp [peek]
      refine ⟨by rw [hp1, hp2], fun v hv => by rw [hp1, hp2], fun n => ?_⟩
      rw [hp1, hp2]
      cases n with
      | zero => rfl
      | succ n =>
        have hn1 : peekableNext f ⟨s', some (some x)⟩ = (some x, ⟨s', none⟩) := by
          simp [peekableNext]
        have hn2 : peekableNext f ⟨s, none⟩ = (some x, ⟨s', none⟩) := by
          simp [peekableNext, h]
        rw [collectN_step_some _ hn1, collectN_step_some _ hn2]
    | none =>
      have h1 : (f s').1 = none := by
        have := hf s (by rw [h])
        rw [h] at this
        exact this
      rcases h2 : f s' with ⟨v2, s''⟩
      rw [h2] at h1
      simp only at h1
      subst h1
      have h3 : (f s'').1 = none := by
        have := hf s' (by rw [h2])
        rw [h2] at this
        exact this
      have hp1 : peek f ⟨s, none⟩ = (none, ⟨s', none⟩) := by
        simp [peek, h]
      have hp2 : peek f ⟨s', none⟩ = (none, ⟨s'', none⟩) := by
        simp [peek, h2]
      refine ⟨by rw [hp1, hp2], fun v hv => ?_, fun n => ?_⟩
      · rw [hp1] at hv
        simp at hv
      · rw [hp1, hp2]
        cases n with
        | zero => rfl
        | succ n =>
          rcases h4 : f s'' with ⟨v4, s4⟩
          rw [h4] at h3
          simp only at h3
          subst h3
          have hn1 : peekableNext f ⟨s'', none⟩ = (none, ⟨s4, none⟩) := by
            simp [peekableNext, h4]
          have hn2 : peekableNext f ⟨s, none⟩ = (none, ⟨s', none⟩) := by
            simp [peekableNext, h]
          rw [collectN_step_none _ hn1, collectN_step_none _ hn2]

/-- Witness for C9 (amended): the peekable over `[5, 6]`, where the first
peek returns 5 and the second peek is a no-op. -/
theorem c9_peek_amended_witness :
    (peek (@listNext Int) (peek (@listNext Int) ⟨[5, 6], none⟩).2).1 =
      (peek (@listNext Int) ⟨[5, 6], none⟩).1 ∧
    peek (@listNext Int) (peek (@listNext Int) ⟨[5, 6], none⟩).2 =
      peek (@listNext Int) ⟨[5, 6], none⟩ ∧
    collectN (peekableNext (@listNext Int))
      (peek (@listNext Int) (peek (@listNext Int) ⟨[5, 6], none⟩).2).2 3 =
      collectN (peekableNext (@listNext Int)) ⟨[5, 6], none⟩ 3 :=
  ⟨(c9_peek_amended (List Int) Int listNext ⟨[5, 6], none⟩ listNext_sticky).1,
   (c9_peek_amended (List Int) Int listNext ⟨[5, 6], none⟩ listNext_sticky).2.1 5 (by decide),
   (c9_peek_amended (List Int) Int listNext ⟨[5, 6], none⟩ listNext_sticky).2.2 3⟩

/-! ## take -/

theorem iterN_succ (f : NextFn σ α) (s : σ) (k : Nat) :
    iterN f s (k + 1) = iterN f (f s).2 k := rfl

theorem take_run (b : Nat) :
    ∀ (c m : Int) (l : List α), m - c = (b : Int) → b < l.length →
      collectN (takeWhileNext listNext counterPred) ⟨l, ⟨c, m⟩, false⟩ (b + 1) =
        l.take b ∧
      iterN (takeWhileNext listNext counterPred) ⟨l, ⟨c, m⟩, false⟩ (b + 1) =
        ⟨l.drop (b + 1), ⟨c + (b : Int) + 1, m⟩, true⟩ ∧
      outAt (takeWhileNext listNext counterPred) ⟨l, ⟨c, m⟩, false⟩ b = none := by
  induction b with
  | zero =>
    intro c m l hcm hlen
    cases l with
    | nil => simp at hlen
    | cons x xs =>
      have hstep : takeWhileNext listNext counterPred
          (⟨x :: xs, ⟨c, m⟩, false⟩ : TakeWhileState (List α) CounterState) =
          (none, ⟨xs, ⟨c + 1, m⟩, true⟩) := by
        have hlt : ¬ c < m := by omega
        simp [takeWhileNext, listNext, counterPred, hlt]
      refine ⟨collectN_step_none _ hstep 0, ?_, ?_⟩
      · rw [iterN_succ, hstep]
        simp [iterN]
      · rw [outAt, iterN, hstep]
  | succ b ih =>
    intro c m l hcm hlen
    cases l with
    | nil => simp at hlen
    | cons x xs =>
      have hstep : takeWhileNext listNext counterPred
          (⟨x :: xs, ⟨c, m⟩, false⟩ : TakeWhileState (List α) CounterState) =
          (some x, ⟨xs, ⟨c + 1, m⟩, false⟩) := by
        have hlt : c < m := by omega
        simp [takeWhileNext, listNext, counterPred, hlt]
      have hlen' : b < xs.length := by
        simp only [List.length_cons] at hlen
        omega
      rcases ih (c + 1) m xs (by omega) hlen' with ⟨ihc, ihs, iho⟩
      refine ⟨?_, ?_, ?_⟩
      · rw [collectN_step_some _ hstep, ihc, List.take_succ_cons]
      · have harith : c + 1 + (b : Int) + 1 = c + ((b + 1 : Nat) : Int) + 1 := by
          push_cast
          ring
        rw [iterN_succ, hstep, ihs, List.drop_succ_cons, harith]
      · rw [outAt_succ, hstep]
        exact iho

/-- Claim C10: for any in-memory upstream with more than `n` items,
`take(n)` yields exactly the first `n` items, but the run that exhausts it
leaves the upstream advanced `n + 1` times (its state is `drop (n+1)` of
the source): the `(n+1)`-th upstream item is pulled and discarded when the
`Counter` predicate first fails, and that call is the one signalling
exhaustion.  For `n = 0` this means `take(0)` yields nothing yet still
advances the upstream once. -/
theorem c10_take_pulls_one_extra :
    ∀ (α : Type) (l : List α) (n : Nat), n < l.length →
      collectN (takeWhileNext listNext counterPred) (takeInit (n : Int) l) (n + 1) =
        l.take n ∧
      iterN (takeWhileNext listNext counterPred) (takeInit (n : Int) l) (n + 1) =
        ⟨l.drop (n + 1), ⟨(n : Int) + 1, (n : Int)⟩, true⟩ ∧
      outAt (takeWhileNext listNext counterPred) (takeInit (n : Int) l) n = none := by
  intro α l n hlen
  have h := take_run n 0 (n : Int) l (by omega) hlen
  simpa [takeInit, takeWhileInit] using h

/-- Witness for C10: `take(2)` over `[1,2,3,4]` yields `[1, 2]` while the
upstream ends at `[4]` (three items pulled), and `take(0)` over `[9,8,7]`
pulls one upstream item. -/
theorem c10_take_pulls_one_extra_witness :
    (collectN (takeWhileNext listNext counterPred) (takeInit 2 [1, 2, 3, 4]) 3 =
      [(1 : Int), 2] ∧
     iterN (takeWhileNext listNext counterPred) (takeInit 2 [1, 2, 3, 4]) 3 =
      ⟨[(4 : Int)], ⟨3, 2⟩, true⟩) ∧
    iterN (takeWhileNext listNext counterPred) (takeInit 0 [9, 8, 7]) 1 =
      ⟨[(8 : Int), 7], ⟨1, 0⟩, true⟩ := by
  have h2 := c10_take_pulls_one_extra Int [1, 2, 3, 4] 2 (by decide)
  have h0 := c10_take_pulls_one_extra Int [9, 8, 7] 0 (by decide)
  exact ⟨⟨h2.1, h2.2.1⟩, h0.2.1⟩

end RustyIter
